import Mathlib

set_option maxRecDepth 8000

namespace ProcessRuleset

/-- A line of a rule file, modelled as its list of characters. -/
abbrev Line := List Char

/-- Whitespace characters removed by python str.strip with no arguments
(ASCII space, tab, newline, vertical tab, form feed, carriage return). -/
def isSpace (c : Char) : Bool :=
  c.toNat = 32 || c.toNat = 9 || c.toNat = 10 || c.toNat = 11 || c.toNat = 12 || c.toNat = 13

def chs (s : String) : Line := s.toList

/-- Leading part of python str.strip. -/
def plstrip (l : Line) : Line := l.dropWhile isSpace

/-- Trailing part of python str.strip. -/
def prstrip (l : Line) : Line := (l.reverse.dropWhile isSpace).reverse

/-- python str.strip(): whitespace removed at both ends. -/
def pstrip (l : Line) : Line := prstrip (plstrip l)

def isDot (c : Char) : Bool := c == '.'

/-- The four watermark sentinel strings listed in remove_marker_lines. -/
def markers : List Line :=
  [chs "7h1s_rul35et_i5_mad3_by_5ukk4w-ruleset.skk.moe",
   chs "this_ruleset_is_made_by_sukkaw.ruleset.skk.moe",
   chs "DOMAIN,this_ruleset_is_made_by_sukkaw.ruleset.skk.moe",
   chs "DOMAIN,7h1s_rul35et_i5_mad3_by_5ukk4w-ruleset.skk.moe"]

/-- The line contains some watermark sentinel as an exact substring,
as tested by the python expression any of m in line for m in markers. -/
def hasMarker (l : Line) : Prop := ∃ m ∈ markers, m <:+: l

instance (l : Line) : Decidable (hasMarker l) := by
  unfold hasMarker; infer_instance

/-- Core per-file loop of remove_marker_lines: keep exactly the lines
containing no sentinel, in order. -/
def remove_marker_lines : List Line → List Line
  | [] => []
  | l :: ls => if hasMarker l then remove_marker_lines ls else l :: remove_marker_lines ls

/-- The prefixes that normalize_domain_prefix treats as already valid
(the literal python list, including the comment mark). -/
def protectedPrefixes : List Line :=
  [chs "DOMAIN,", chs "DOMAIN-SUFFIX,", chs "DOMAIN-SET,", chs "DOMAIN-KEYWORD,", chs "#"]

def suffixTok : Line := chs "DOMAIN-SUFFIX,"

/-- Translation of normalize_domain_prefix from process_ruleset.py. -/
def normalize_domain_prefix (line : Line) : Line :=
  let stripped := pstrip line
  if ∃ p ∈ protectedPrefixes, p <+: stripped then line
  else if stripped = [] ∨ chs "#" <+: stripped then line
  else
    let domain := stripped.dropWhile isDot
    if domain = [] then line
    else suffixTok ++ domain

/-- The prefix list of extract_domains, in the python iteration order
(the loop breaks at the first matching element). -/
def extractPrefixes : List Line :=
  [chs "DOMAIN-SUFFIX,", chs "DOMAIN,", chs "DOMAIN-SET,", chs "DOMAIN-KEYWORD,"]

/-- The prefix-removal loop inside extract_domains: the first matching
known directive token is removed and the remainder re-stripped. -/
def stripKnown (stripped : Line) : Line :=
  match extractPrefixes.find? (fun p => decide (p <+: stripped)) with
  | some p => pstrip (stripped.drop p.length)
  | none => stripped

/-- The per-line body of extract_domains: the canonical domain key of the
line, or none when the line contributes nothing. -/
def extractLineKey (line : Line) : Option Line :=
  let stripped := pstrip line
  if stripped = [] ∨ chs "#" <+: stripped then none
  else
    let key := (stripKnown stripped).dropWhile isDot
    if key = [] then none else some key

/-- extract_domains over the lines of one file.  The python version
accumulates a set; here the keys are kept as a list (with possible
duplicates) and deduplicated at the merge step. -/
def extract_domains (ls : List Line) : List Line := ls.filterMap extractLineKey

/-- Byte-wise lexicographic comparison of lines, matching python string
comparison by code point. -/
def lexLe : Line → Line → Bool
  | [], _ => true
  | _ :: _, [] => false
  | a :: as, b :: bs => if a < b then true else if b < a then false else lexLe as bs

def keyLe (a b : Line) : Prop := lexLe a b = true

instance : DecidableRel keyLe := fun a b => by
  unfold keyLe; infer_instance

/-- python sorted on a collection of keys. -/
def sortKeys (l : List Line) : List Line := List.insertionSort keyLe l

/-- The sorted unique key list of the union of the two sources, the
content of the unified file built by merge_and_deduplicate. -/
def merged_keys (dset nip : List Line) : List Line :=
  sortKeys ((extract_domains dset ++ extract_domains nip).dedup)

def merged_lines (dset nip : List Line) : List Line :=
  (merged_keys dset nip).map (fun k => suffixTok ++ k)

def joinNl (ls : List Line) : Line := List.intercalate (chs "\n") ls ++ chs "\n"

/-- The exact byte content written by merge_and_deduplicate. -/
def merged_output (dset nip : List Line) : Line := joinNl (merged_lines dset nip)

/-- The filesystem slice that one merge_and_deduplicate call touches:
the optional domainset source, the optional non_ip source, and the
unified output file (none meaning the file does not exist). -/
structure MergeFS where
  domainset_file : Option (List Line)
  non_ip_file : Option (List Line)
  unified : Option (List Line)

def extractOpt : Option (List Line) → List Line
  | none => []
  | some ls => extract_domains ls

/-- Translation of merge_and_deduplicate: no sources means no action;
an empty extracted key union also returns early (writing and deleting
nothing); otherwise write the unified file and delete the sources. -/
def merge_and_deduplicate (fs : MergeFS) : MergeFS :=
  if fs.domainset_file = none ∧ fs.non_ip_file = none then fs
  else
    let keys := extractOpt fs.domainset_file ++ extractOpt fs.non_ip_file
    if keys = [] then fs
    else { domainset_file := none, non_ip_file := none,
           unified := some ((sortKeys keys.dedup).map (fun k => suffixTok ++ k)) }

/-- One file pass of remove_marker_lines together with its write-back
decision: returns the resulting content and whether a write occurred
(the python code writes only when the new line list differs). -/
def remove_marker_pass (lines : List Line) : List Line × Bool :=
  let newLines := remove_marker_lines lines
  if newLines = lines then (lines, false) else (newLines, true)

/-- One file pass of the normalization stage together with its write-back
decision (the changed flag of process_domainset_and_non_ip). -/
def normalize_pass (lines : List Line) : List Line × Bool :=
  let newLines := lines.map normalize_domain_prefix
  let changed := lines.any (fun l => decide ( normalize_domain_prefix l ≠ l))
  if changed = true then (newLines, true) else (lines, false)

/-- ASCII lowercasing, the fragment of python str.lower relevant to the
path components compared here. -/
def lowerChar (c : Char) : Char :=
  if 65 ≤ c.toNat ∧ c.toNat ≤ 90 then Char.ofNat (c.toNat + 32) else c

def lowerStr (s : List Char) : List Char := s.map lowerChar

/-- One file as seen by the directory walk: its directory path
components, its file name (the final path component), and its lines. -/
structure RuleFile where
  dirs : List (List Char)
  name : List Char
  content : List Line

/-- Some path component (python path.parts, which includes the file
name) lowercases to domainset or to non_ip. -/
def underTargetDir (f : RuleFile) : Prop :=
  ∃ p ∈ f.dirs ++ [f.name], lowerStr p = chs "domainset" ∨ lowerStr p = chs "non_ip"

instance (f : RuleFile) : Decidable (underTargetDir f) := by
  unfold underTargetDir; infer_instance

/-- Per-file action of process_domainset_and_non_ip: only .conf files
under a domainset or non_ip component are rewritten. -/
def process_domainset_and_non_ip (f : RuleFile) : RuleFile :=
  if chs ".conf" <:+ f.name ∧ underTargetDir f then
    { f with content := f.content.map normalize_domain_prefix }
  else f

/-- The extensions globbed by remove_marker_lines. -/
def markerExts : List (List Char) := [chs ".conf", chs ".txt", chs ".json"]

/-- remove_marker_lines touches every file whose name carries one of the
globbed extensions, with no directory restriction. -/
def marker_stage_processes (f : RuleFile) : Prop := ∃ e ∈ markerExts, e <:+ f.name

instance (f : RuleFile) : Decidable (marker_stage_processes f) := by
  unfold marker_stage_processes; infer_instance

/-- One file in the error model of the marker stage: its content,
whether reading succeeds (the python read is inside try/except), and
whether writing succeeds (the python write is not protected). -/
structure FileEntry where
  content : List Line
  readable : Bool
  writeOk : Bool

/-- The intended per-file result: unreadable files are skipped, readable
files are cleaned. -/
def markerEntryResult (e : FileEntry) : List Line :=
  if e.readable = true then remove_marker_lines e.content else e.content

/-- The marker stage loop with its error behaviour: a read failure skips
the file and continues, while a write failure raises out of the loop and
aborts the remaining files. -/
def run_remove_marker : List FileEntry → Except Unit (List (List Line))
  | [] => Except.ok []
  | e :: es =>
    if e.readable = true then
      let newLines := remove_marker_lines e.content
      if newLines = e.content then
        match run_remove_marker es with
        | Except.ok rest => Except.ok (e.content :: rest)
        | Except.error u => Except.error u
      else if e.writeOk = true then
        match run_remove_marker es with
        | Except.ok rest => Except.ok (newLines :: rest)
        | Except.error u => Except.error u
      else Except.error ()
    else
      match run_remove_marker es with
      | Except.ok rest => Except.ok (e.content :: rest)
      | Except.error u => Except.error u

/-- The clean step of the pipeline on one file content: watermark
removal followed by prefix normalization. -/
def clean_file (ls : List Line) : List Line :=
  (remove_marker_lines ls).map normalize_domain_prefix

/-- Case-insensitive sentinel containment, the comparison the spec
prescribes for watermark matching (both sides lowercased). -/
def hasMarkerCI (l : Line) : Prop := ∃ m ∈ markers, lowerStr m <:+: lowerStr l

instance (l : Line) : Decidable (hasMarkerCI l) := by
  unfold hasMarkerCI; infer_instance

/-- The four directive tokens that the code actually protects in
normalize_domain_prefix (its python list without the comment mark). -/
def codeProtectedDirectives : List Line :=
  [chs "DOMAIN,", chs "DOMAIN-SUFFIX,", chs "DOMAIN-SET,", chs "DOMAIN-KEYWORD,"]

/-- Modelled from the spec: the fixed six-token directive vocabulary of
spec sections 3 and 6, used to state which lines count as
directive-prefixed in the claims. -/
def specDirectivePrefixes : List Line :=
  [chs "DOMAIN,", chs "DOMAIN-SUFFIX,", chs "DOMAIN-KEYWORD,", chs "DOMAIN-SET,",
   chs "DOMAIN-WILDCARD,", chs "URL-REGEX,"]

/-- The key order is total. -/
instance : IsTotal Line keyLe where
  total := by
    intro a
    induction a with
    | nil =>
      intro b
      left
      rfl
    | cons x xs ih =>
      intro b
      cases b with
      | nil =>
        right
        rfl
      | cons y ys =>
        rcases lt_trichotomy x y with hxy | hxy | hxy
        · left
          show lexLe (x :: xs) (y :: ys) = true
          simp only [lexLe]
          rw [if_pos hxy]
        · subst hxy
          rcases ih ys with h | h
          · left
            show lexLe (x :: xs) (x :: ys) = true
            simp only [lexLe]
            rw [if_neg (lt_irrefl x), if_neg (lt_irrefl x)]
            exact h
          · right
            show lexLe (x :: ys) (x :: xs) = true
            simp only [lexLe]
            rw [if_neg (lt_irrefl x), if_neg (lt_irrefl x)]
            exact h
        · right
          show lexLe (y :: ys) (x :: xs) = true
          simp only [lexLe]
          rw [if_pos hxy]

/-- The key order is transitive. -/
instance : IsTrans Line keyLe where
  trans := by
    intro a
    induction a with
    | nil =>
      intro b c _ _
      rfl
    | cons x xs ih =>
      intro b c hab hbc
      cases b with
      | nil =>
        simp only [keyLe, lexLe] at hab
        exact absurd hab (by decide)
      | cons y ys =>
        cases c with
        | nil =>
          simp only [keyLe, lexLe] at hbc
          exact absurd hbc (by decide)
        | cons z zs =>
          simp only [keyLe, lexLe] at hab hbc ⊢
          rcases lt_trichotomy x y with h1 | h1 | h1
          · rcases lt_trichotomy y z with h2 | h2 | h2
            · rw [if_pos (lt_trans h1 h2)]
            · subst h2
              rw [if_pos h1]
            · rw [if_neg (lt_asymm h2), if_pos h2] at hbc
              exact absurd hbc (by decide)
          · subst h1
            rw [if_neg (lt_irrefl x), if_neg (lt_irrefl x)] at hab
            rcases lt_trichotomy x z with h2 | h2 | h2
            · rw [if_pos h2]
            · subst h2
              rw [if_neg (lt_irrefl x), if_neg (lt_irrefl x)] at hbc ⊢
              exact ih ys zs hab hbc
            · rw [if_neg (lt_asymm h2), if_pos h2] at hbc
              exact absurd hbc (by decide)
          · rw [if_neg (lt_asymm h1), if_pos h1] at hab
            exact absurd hab (by decide)

/-- The key order is antisymmetric. -/
instance : IsAntisymm Line keyLe where
  antisymm := by
    intro a
    induction a with
    | nil =>
      intro b hab hba
      cases b with
      | nil => rfl
      | cons y ys =>
        simp only [keyLe, lexLe] at hba
        exact absurd hba (by decide)
    | cons x xs ih =>
      intro b hab hba
      cases b with
      | nil =>
        simp only [keyLe, lexLe] at hab
        exact absurd hab (by decide)
      | cons y ys =>
        simp only [keyLe, lexLe] at hab hba
        rcases lt_trichotomy x y with h1 | h1 | h1
        · rw [if_neg (lt_asymm h1), if_pos h1] at hba
          exact absurd hba (by decide)
        · subst h1
          rw [if_neg (lt_irrefl x), if_neg (lt_irrefl x)] at hab hba
          rw [ih ys hab hba]
        · rw [if_neg (lt_asymm h1), if_pos h1] at hab
          exact absurd hab (by decide)

lemma head?_dropWhile_false {α : Type} (p : α → Bool) :
    ∀ (l : List α) (a : α), (l.dropWhile p).head? = some a → p a = false := by
  intro l
  induction l with
  | nil =>
    intro a h
    simp [List.dropWhile] at h
  | cons b t ih =>
    intro a h
    rw [List.dropWhile_cons] at h
    cases hb : p b with
    | true =>
      simp only [hb, if_true] at h
      exact ih a h
    | false =>
      simp only [hb] at h
      simp at h
      rw [← h]
      exact hb

lemma dropWhile_eq_self_of_head {α : Type} (p : α → Bool) (l : List α)
    (h : ∀ a, l.head? = some a → p a = false) : l.dropWhile p = l := by
  cases l with
  | nil => rfl
  | cons b t => simp [List.dropWhile_cons, h b rfl]

lemma getLast?_dropWhile_ne_nil {α : Type} (p : α → Bool) (l : List α)
    (h : l.dropWhile p ≠ []) : (l.dropWhile p).getLast? = l.getLast? := by
  obtain ⟨pre, hpre⟩ := @List.dropWhile_suffix _ l p
  conv_rhs => rw [← hpre]
  rw [List.getLast?_append]
  cases hd : (l.dropWhile p).getLast? with
  | none => exact absurd (List.getLast?_eq_none_iff.mp hd) h
  | some a => simp [Option.or_some]

lemma getLast?_pstrip_false (l : Line) (a : Char)
    (h : (pstrip l).getLast? = some a) : isSpace a = false := by
  unfold pstrip prstrip at h
  rw [← List.head?_reverse, List.reverse_reverse] at h
  exact head?_dropWhile_false isSpace _ a h

lemma prstrip_eq_self (l : Line)
    (h : ∀ a, l.getLast? = some a → isSpace a = false) : prstrip l = l := by
  unfold prstrip
  have hd : l.reverse.dropWhile isSpace = l.reverse := by
    apply dropWhile_eq_self_of_head
    intro a ha
    rw [List.head?_reverse] at ha
    exact h a ha
  rw [hd, List.reverse_reverse]

lemma prstrip_prefix (l : Line) : prstrip l <+: l := by
  unfold prstrip
  conv_rhs => rw [← List.reverse_reverse l]
  exact List.reverse_prefix.mpr (List.dropWhile_suffix isSpace)

lemma infix_pstrip (l : Line) : pstrip l <:+: l := by
  have h1 : pstrip l <+: plstrip l := prstrip_prefix (plstrip l)
  have h2 : plstrip l <:+ l := List.dropWhile_suffix isSpace
  exact h1.isInfix.trans h2.isInfix

lemma plstrip_suffixTok_append (d : Line) : plstrip (suffixTok ++ d) = suffixTok ++ d := rfl

lemma pstrip_suffixTok_append (d : Line) (hne : d ≠ [])
    (hlast : ∀ a, d.getLast? = some a → isSpace a = false) :
    pstrip (suffixTok ++ d) = suffixTok ++ d := by
  unfold pstrip
  rw [plstrip_suffixTok_append]
  apply prstrip_eq_self
  intro a ha
  rw [List.getLast?_append] at ha
  cases hd : d.getLast? with
  | none => exact absurd (List.getLast?_eq_none_iff.mp hd) hne
  | some b =>
    rw [hd, Option.or_some] at ha
    injection ha with hba
    rw [← hba]
    exact hlast b hd

lemma normalize_eq_or (l : Line) :
    normalize_domain_prefix l = l ∨
    ((pstrip l).dropWhile isDot ≠ [] ∧
      normalize_domain_prefix l = suffixTok ++ (pstrip l).dropWhile isDot) := by
  simp only [ normalize_domain_prefix]
  by_cases h1 : ∃ p ∈ protectedPrefixes, p <+: pstrip l
  · left
    rw [if_pos h1]
  · rw [if_neg h1]
    by_cases h2 : pstrip l = [] ∨ chs "#" <+: pstrip l
    · left
      rw [if_pos h2]
    · rw [if_neg h2]
      by_cases h3 : (pstrip l).dropWhile isDot = []
      · left
        rw [if_pos h3]
      · right
        rw [if_neg h3]
        exact ⟨h3, rfl⟩

lemma normalize_idem (l : Line) :
    normalize_domain_prefix ( normalize_domain_prefix l) = normalize_domain_prefix l := by
  rcases normalize_eq_or l with h | ⟨hne, h⟩
  · rw [h]
    exact h
  · rw [h]
    have hlast : ∀ a, ((pstrip l).dropWhile isDot).getLast? = some a → isSpace a = false := by
      intro a ha
      rw [getLast?_dropWhile_ne_nil isDot (pstrip l) hne] at ha
      exact getLast?_pstrip_false l a ha
    have hps := pstrip_suffixTok_append _ hne hlast
    simp only [ normalize_domain_prefix]
    rw [hps, if_pos ⟨suffixTok, by decide, List.prefix_append _ _⟩]

lemma infix_append_split {m a b : Line} (h : m <:+: a ++ b) :
    m <:+: b ∨ ∃ k, k < a.length ∧ (m <+: a.drop k ∨ a.drop k <+: m) := by
  obtain ⟨s, t, hst⟩ := h
  have hsp : s <+: a ++ b := ⟨m ++ t, by rw [← hst]; simp [List.append_assoc]⟩
  have hap : a <+: a ++ b := List.prefix_append a b
  rcases le_or_lt a.length s.length with hle | hlt
  · left
    obtain ⟨s2, hs2⟩ := List.prefix_of_prefix_length_le hap hsp hle
    refine ⟨s2, t, ?_⟩
    have hcancel : a ++ (s2 ++ m ++ t) = a ++ b := by
      rw [← hst, ← hs2]
      simp [List.append_assoc]
    exact List.append_cancel_left hcancel
  · right
    obtain ⟨r, hr⟩ := List.prefix_of_prefix_length_le hsp hap (le_of_lt hlt)
    refine ⟨s.length, hlt, ?_⟩
    have hdrop : a.drop s.length = r := by
      rw [← hr]
      exact List.drop_left s r
    have hrb : r ++ b = m ++ t := by
      refine @List.append_cancel_left _ s _ _ ?_
      rw [← List.append_assoc, hr, ← List.append_assoc, hst]
    have hm : m <+: r ++ b := by
      rw [hrb]
      exact List.prefix_append m t
    have hrp : r <+: r ++ b := List.prefix_append r b
    rcases le_total m.length r.length with hmr | hrm
    · left
      rw [hdrop]
      exact List.prefix_of_prefix_length_le hm hrp hmr
    · right
      rw [hdrop]
      exact List.prefix_of_prefix_length_le hrp hm hrm

lemma marker_boundary :
    ∀ m ∈ markers, ∀ k ∈ List.range suffixTok.length,
      ¬ (m <+: suffixTok.drop k) ∧ ¬ (suffixTok.drop k <+: m) := by decide

lemma noMarker_normalize (l : Line) (h : ¬ hasMarker l) :
    ¬ hasMarker ( normalize_domain_prefix l) := by
  rcases normalize_eq_or l with he | ⟨hne, he⟩
  · rw [he]
    exact h
  · rw [he]
    intro hcon
    unfold hasMarker at hcon
    obtain ⟨m, hm, hinf⟩ := hcon
    rcases infix_append_split hinf with hb | ⟨k, hk, hcase⟩
    · apply h
      show ∃ m ∈ markers, m <:+: l
      refine ⟨m, hm, ?_⟩
      have h1 : (pstrip l).dropWhile isDot <:+ pstrip l := List.dropWhile_suffix isDot
      exact hb.trans (h1.isInfix.trans (infix_pstrip l))
    · have hbd := marker_boundary m hm k (List.mem_range.mpr hk)
      tauto

lemma mem_remove_marker_lines {ls : List Line} {l : Line}
    (h : l ∈ remove_marker_lines ls) : l ∈ ls ∧ ¬ hasMarker l := by
  induction ls with
  | nil => simp [remove_marker_lines] at h
  | cons x xs ih =>
    simp only [remove_marker_lines] at h
    by_cases hx : hasMarker x
    · rw [if_pos hx] at h
      rcases ih h with ⟨h1, h2⟩
      exact ⟨List.mem_cons_of_mem x h1, h2⟩
    · rw [if_neg hx] at h
      rcases List.mem_cons.mp h with rfl | hmem
      · exact ⟨List.mem_cons_self l xs, hx⟩
      · rcases ih hmem with ⟨h1, h2⟩
        exact ⟨List.mem_cons_of_mem x h1, h2⟩

lemma remove_marker_lines_eq_self {ls : List Line}
    (h : ∀ l ∈ ls, ¬ hasMarker l) : remove_marker_lines ls = ls := by
  induction ls with
  | nil => rfl
  | cons x xs ih =>
    simp only [remove_marker_lines]
    rw [if_neg (h x (List.mem_cons_self x xs)),
      ih (fun l hl => h l (List.mem_cons_of_mem x hl))]

lemma map_normalize_idem (ls : List Line) :
    (ls.map normalize_domain_prefix).map normalize_domain_prefix =
      ls.map normalize_domain_prefix := by
  induction ls with
  | nil => rfl
  | cons x xs ih => simp [normalize_idem x, ih]

/-- Claim C1, counterexample: a line starting with URL-REGEX, is not
returned verbatim by the line rewriter; it is rewritten into a
DOMAIN-SUFFIX,-prefixed line, contrary to the claim. -/
theorem c1_url_regex_rewritten :
    normalize_domain_prefix (chs "URL-REGEX,^https://example") ≠
      chs "URL-REGEX,^https://example" ∧
    normalize_domain_prefix (chs "URL-REGEX,^https://example") =
      chs "DOMAIN-SUFFIX,URL-REGEX,^https://example" := by
  constructor
  · decide
  · decide

/-- Claim C1 as amended: only the four directive tokens that the code
lists (DOMAIN, DOMAIN-SUFFIX, DOMAIN-SET, DOMAIN-KEYWORD, each with the
trailing comma) are protected; any line whose trimmed text starts with
one of them is returned by normalize_domain_prefix unchanged, verbatim. -/
theorem c1_code_protected_prefixes_unchanged (line : Line)
    (h : ∃ p ∈ codeProtectedDirectives, p <+: pstrip line) :
    normalize_domain_prefix line = line := by
  obtain ⟨p, hp, hpre⟩ := h
  have hmem : p ∈ protectedPrefixes := by
    simp [codeProtectedDirectives] at hp
    rcases hp with rfl | rfl | rfl | rfl
    · decide
    · decide
    · decide
    · decide
  simp only [ normalize_domain_prefix]
  rw [if_pos ⟨p, hmem, hpre⟩]

/-- Witness for the amended claim C1 at a concrete protected line. -/
theorem c1_witness :
    normalize_domain_prefix (chs "DOMAIN,example.com") = chs "DOMAIN,example.com" :=
  c1_code_protected_prefixes_unchanged (chs "DOMAIN,example.com") (by decide)

/-- Claim C2, counterexample: a line equal to an upper-cased sentinel
contains the watermark under case-insensitive comparison, yet the
watermark-removal stage keeps it, because the code compares
case-sensitively. -/
theorem c2_uppercase_sentinel_kept :
    hasMarkerCI (chs "THIS_RULESET_IS_MADE_BY_SUKKAW.RULESET.SKK.MOE") ∧
    remove_marker_lines [chs "THIS_RULESET_IS_MADE_BY_SUKKAW.RULESET.SKK.MOE"] =
      [chs "THIS_RULESET_IS_MADE_BY_SUKKAW.RULESET.SKK.MOE"] := by
  constructor
  · decide
  · decide

/-- Claim C2 as amended: watermark matching is exact (case-sensitive):
every line kept by the removal stage contains no sentinel as an exact
substring. -/
theorem c2_case_sensitive_removal (ls : List Line) (l : Line)
    (h : l ∈ remove_marker_lines ls) : ¬ hasMarker l :=
  (mem_remove_marker_lines h).2

/-- Witness for the amended claim C2: the surviving line of a two-line
file whose first line is a sentinel line. -/
theorem c2_witness : ¬ hasMarker (chs "example.com") :=
  c2_case_sensitive_removal
    [chs "DOMAIN,this_ruleset_is_made_by_sukkaw.ruleset.skk.moe", chs "example.com"]
    (chs "example.com") (by decide)

/-- Claim C3: the cleaning pipeline is idempotent, both at file level
(clean composed with itself equals clean) and at line level (the
rewriter is a no-op on its own output). -/
theorem c3_clean_idempotent :
    (∀ F : List Line, clean_file (clean_file F) = clean_file F) ∧
    (∀ L : Line, normalize_domain_prefix ( normalize_domain_prefix L) =
      normalize_domain_prefix L) := by
  constructor
  · intro F
    unfold clean_file
    have hmem : ∀ l ∈ (remove_marker_lines F).map normalize_domain_prefix,
        ¬ hasMarker l := by
      intro l hl
      rcases List.mem_map.mp hl with ⟨x, hx, rfl⟩
      exact noMarker_normalize x (mem_remove_marker_lines hx).2
    rw [remove_marker_lines_eq_self hmem, map_normalize_idem]
  · exact normalize_idem

/-- Claim C4: a non-empty, non-comment line starting with none of the
six spec directive tokens has its leading dots stripped and is emitted
as DOMAIN-SUFFIX, plus the remainder; if nothing remains after the dots
the original line is returned and no dangling prefix is emitted. -/
theorem c4_barevalue_rewrite (line : Line)
    (h1 : pstrip line ≠ [])
    (h2 : ∀ p ∈ specDirectivePrefixes, ¬ p <+: pstrip line)
    (h3 : ¬ chs "#" <+: pstrip line) :
    ((pstrip line).dropWhile isDot ≠ [] →
      normalize_domain_prefix line = suffixTok ++ (pstrip line).dropWhile isDot) ∧
    ((pstrip line).dropWhile isDot = [] → normalize_domain_prefix line = line) := by
  have hno : ¬ ∃ p ∈ protectedPrefixes, p <+: pstrip line := by
    rintro ⟨p, hp, hpre⟩
    simp [protectedPrefixes] at hp
    rcases hp with rfl | rfl | rfl | rfl | rfl
    · exact h2 (chs "DOMAIN,") (by decide) hpre
    · exact h2 (chs "DOMAIN-SUFFIX,") (by decide) hpre
    · exact h2 (chs "DOMAIN-SET,") (by decide) hpre
    · exact h2 (chs "DOMAIN-KEYWORD,") (by decide) hpre
    · exact h3 hpre
  have hor : ¬ (pstrip line = [] ∨ chs "#" <+: pstrip line) := by
    rintro (he | hh)
    · exact h1 he
    · exact h3 hh
  constructor
  · intro hd
    simp only [ normalize_domain_prefix]
    rw [if_neg hno, if_neg hor, if_neg hd]
  · intro hd
    simp only [ normalize_domain_prefix]
    rw [if_neg hno, if_neg hor, if_pos hd]

/-- Witness for claim C4: the dot-leading line of the spec example. -/
theorem c4_witness :
    normalize_domain_prefix (chs ".example.com") = chs "DOMAIN-SUFFIX,example.com" := by
  have h := (c4_barevalue_rewrite (chs ".example.com")
    (by decide) (by decide) (by decide)).1 (by decide)
  rw [h]
  decide

/-- Claim C5: on the spec merge example the unified file holds exactly
DOMAIN-SUFFIX,a.com and DOMAIN-SUFFIX,b.com in sorted order, the two
source spellings of a.com collapsing to one key. -/
theorem c5_merge_example :
    (merge_and_deduplicate
      { domainset_file := some [chs "DOMAIN-SUFFIX,a.com"],
        non_ip_file := some [chs ".a.com", chs "DOMAIN-SUFFIX,b.com"],
        unified := none }).unified =
      some [chs "DOMAIN-SUFFIX,a.com", chs "DOMAIN-SUFFIX,b.com"] := by
  decide

/-- Claim C6, counterexample: a domainset source exists but holds only a
comment, so no keys are extracted; the merger returns early, writing no
unified file and deleting nothing, contrary to the claim that one
existing source always suffices. -/
theorem c6_empty_extraction_skips :
    (merge_and_deduplicate
      { domainset_file := some [chs "# comment only"],
        non_ip_file := none, unified := none }).domainset_file =
      some [chs "# comment only"] ∧
    (merge_and_deduplicate
      { domainset_file := some [chs "# comment only"],
        non_ip_file := none, unified := none }).unified = none := by
  constructor
  · decide
  · decide

/-- Claim C6 as amended: whenever at least one source exists and the
union of extracted keys is non-empty, the merger writes the unified
file and removes every source; with one source the merge still
succeeds. -/
theorem c6_merge_writes_and_retires (fs : MergeFS)
    (h1 : ¬ (fs.domainset_file = none ∧ fs.non_ip_file = none))
    (h2 : extractOpt fs.domainset_file ++ extractOpt fs.non_ip_file ≠ []) :
    (merge_and_deduplicate fs).unified =
      some ((sortKeys ((extractOpt fs.domainset_file ++
        extractOpt fs.non_ip_file).dedup)).map (fun k => suffixTok ++ k)) ∧
    (merge_and_deduplicate fs).domainset_file = none ∧
    (merge_and_deduplicate fs).non_ip_file = none := by
  simp only [merge_and_deduplicate]
  rw [if_neg h1, if_neg h2]
  exact ⟨rfl, rfl, rfl⟩

/-- Witness for the amended claim C6: a lone domainset source is merged
and retired. -/
theorem c6_witness :
    (merge_and_deduplicate
      { domainset_file := some [chs "a.com"], non_ip_file := none,
        unified := none }).unified =
      some ((sortKeys ((extractOpt (some [chs "a.com"]) ++
        extractOpt none).dedup)).map (fun k => suffixTok ++ k)) ∧
    (merge_and_deduplicate
      { domainset_file := some [chs "a.com"], non_ip_file := none,
        unified := none }).domainset_file = none ∧
    (merge_and_deduplicate
      { domainset_file := some [chs "a.com"], non_ip_file := none,
        unified := none }).non_ip_file = none :=
  c6_merge_writes_and_retires
    { domainset_file := some [chs "a.com"], non_ip_file := none, unified := none }
    (by decide) (by decide)

/-- Claim C7: on a file left untouched by both stages, neither the
marker pass nor the normalization pass writes, and the content stays
identical. -/
theorem c7_no_write_on_clean (lines : List Line)
    (h1 : ∀ l ∈ lines, ¬ hasMarker l)
    (h2 : ∀ l ∈ lines, normalize_domain_prefix l = l) :
    remove_marker_pass lines = (lines, false) ∧
    normalize_pass lines = (lines, false) := by
  constructor
  · simp only [remove_marker_pass]
    rw [remove_marker_lines_eq_self h1, if_pos rfl]
  · have hany : (lines.any (fun l => decide ( normalize_domain_prefix l ≠ l))) = false := by
      rw [List.any_eq_false]
      intro l hl
      simp [h2 l hl]
    simp only [normalize_pass]
    rw [hany]
    simp

/-- Witness for claim C7: a file of a comment, a blank line and a valid
directive line is written back by neither stage. -/
theorem c7_witness :
    remove_marker_pass [chs "# comment", chs "", chs "DOMAIN,example.com"] =
      ([chs "# comment", chs "", chs "DOMAIN,example.com"], false) ∧
    normalize_pass [chs "# comment", chs "", chs "DOMAIN,example.com"] =
      ([chs "# comment", chs "", chs "DOMAIN,example.com"], false) :=
  c7_no_write_on_clean [chs "# comment", chs "", chs "DOMAIN,example.com"]
    (by decide) (by decide)

/-- Claim C8: the merged byte output is a function of the union of
extracted canonical keys only; equal key unions give byte-identical
output, so re-running the merge on unchanged sources is deterministic. -/
theorem c8_merge_deterministic (d1 n1 d2 n2 : List Line)
    (h : ∀ k, k ∈ extract_domains d1 ++ extract_domains n1 ↔
      k ∈ extract_domains d2 ++ extract_domains n2) :
    merged_output d1 n1 = merged_output d2 n2 := by
  have hperm : (extract_domains d1 ++ extract_domains n1).dedup.Perm
      (extract_domains d2 ++ extract_domains n2).dedup := by
    rw [List.perm_ext_iff_of_nodup (List.nodup_dedup _) (List.nodup_dedup _)]
    intro a
    rw [List.mem_dedup, List.mem_dedup]
    exact h a
  have hkeys : merged_keys d1 n1 = merged_keys d2 n2 := by
    unfold merged_keys sortKeys
    exact @List.eq_of_perm_of_sorted Line keyLe _ _ _
      ((List.perm_insertionSort keyLe _).trans
        (hperm.trans (List.perm_insertionSort keyLe _).symm))
      (List.sorted_insertionSort keyLe _)
      (List.sorted_insertionSort keyLe _)
  unfold merged_output merged_lines
  rw [hkeys]

/-- Witness for claim C8: swapping the two sources leaves the merged
bytes unchanged. -/
theorem c8_witness :
    merged_output [chs "a.com"] [chs "b.com"] =
      merged_output [chs "b.com"] [chs "a.com"] :=
  c8_merge_deterministic [chs "a.com"] [chs "b.com"] [chs "b.com"] [chs "a.com"]
    (by
      intro k
      simp only [List.mem_append]
      exact Or.comm)

/-- Claim C9, counterexample: a write failure on the first file aborts
the marker stage, so the second file (which still carries a sentinel)
is never processed — errors do not all degrade per-item. -/
theorem c9_write_failure_aborts :
    run_remove_marker
      [{ content := [chs "this_ruleset_is_made_by_sukkaw.ruleset.skk.moe"],
         readable := true, writeOk := false },
       { content := [chs "this_ruleset_is_made_by_sukkaw.ruleset.skk.moe"],
         readable := true, writeOk := true }] = Except.error () := by
  rfl

/-- Claim C9 as amended: read failures are per-item — when no write
fails, every unreadable file is skipped and all remaining files are
still processed to their cleaned contents. -/
theorem c9_read_failures_skipped (entries : List FileEntry)
    (h : ∀ e ∈ entries, e.writeOk = true) :
    run_remove_marker entries = Except.ok (entries.map markerEntryResult) := by
  induction entries with
  | nil => rfl
  | cons e es ih =>
    have he := h e (List.mem_cons_self e es)
    have hes := ih (fun x hx => h x (List.mem_cons_of_mem e hx))
    simp only [run_remove_marker]
    by_cases hr : e.readable = true
    · rw [if_pos hr]
      by_cases hch : remove_marker_lines e.content = e.content
      · rw [if_pos hch, hes]
        simp [markerEntryResult, hr, hch]
      · rw [if_neg hch, if_pos he, hes]
        simp [markerEntryResult, hr]
    · rw [if_neg hr, hes]
      simp [markerEntryResult, hr]

/-- Witness for the amended claim C9: the first file is unreadable and
skipped, the second is still cleaned. -/
theorem c9_witness :
    run_remove_marker
      [{ content := [chs "DOMAIN,example.com"], readable := false, writeOk := true },
       { content := [chs "this_ruleset_is_made_by_sukkaw.ruleset.skk.moe",
          chs "DOMAIN,b.com"], readable := true, writeOk := true }] =
      Except.ok [[chs "DOMAIN,example.com"], [chs "DOMAIN,b.com"]] := by
  have h := c9_read_failures_skipped
    [{ content := [chs "DOMAIN,example.com"], readable := false, writeOk := true },
     { content := [chs "this_ruleset_is_made_by_sukkaw.ruleset.skk.moe",
        chs "DOMAIN,b.com"], readable := true, writeOk := true }]
    (by decide)
  rw [h]
  rfl

/-- Claim C10: the normalization stage rewrites only .conf files under a
domainset or non_ip path component (case-insensitive); every other
file is left exactly as it was. -/
theorem c10_norm_frame (f : RuleFile)
    (h : ¬ (chs ".conf" <:+ f.name) ∨ ¬ underTargetDir f) :
    process_domainset_and_non_ip f = f := by
  simp only [process_domainset_and_non_ip]
  rw [if_neg]
  rintro ⟨hc, ht⟩
  rcases h with hh | hh
  · exact hh hc
  · exact hh ht

/-- Witness for claim C10: a .txt file under a domainset folder is left
unchanged by the normalization stage, even though the marker stage does
process .txt files. -/
theorem c10_witness :
    process_domainset_and_non_ip
      { dirs := [chs "data", chs "2025-01-01", chs "DomainSet"],
        name := chs "rules.txt", content := [chs ".example.com"] } =
      { dirs := [chs "data", chs "2025-01-01", chs "DomainSet"],
        name := chs "rules.txt", content := [chs ".example.com"] } ∧
    marker_stage_processes
      { dirs := [chs "data", chs "2025-01-01", chs "DomainSet"],
        name := chs "rules.txt", content := [chs ".example.com"] } :=
  ⟨c10_norm_frame
    { dirs := [chs "data", chs "2025-01-01", chs "DomainSet"],
      name := chs "rules.txt", content := [chs ".example.com"] }
    (by decide), by decide⟩

end ProcessRuleset
